import Mathlib

/-!
Shallow embedding of the resume-parser core of
backend/app/services/resume_parser.py, together with theorems checking the
natural-language specification against it.  Python strings are modelled as
Lean strings (lists of characters), Python sets as deduplicated lists, the
file system and the external NLP / fuzzy-scoring libraries as explicit
function parameters.
-/

namespace ResumeParser

/-! ## Generic string helpers (Python str operations) -/

/-- Index of the leftmost occurrence of pat in txt, scanning left to right
(auxiliary for pyFind, the model of Python str.find). -/
def findSubAux (pat : List Char) : List Char → Nat → Option Nat
  | [], i => if pat = [] then some i else none
  | c :: rest, i =>
    if pat.isPrefixOf (c :: rest) then some i else findSubAux pat rest (i + 1)

/-- Leftmost index at which pat occurs as a contiguous sublist of txt. -/
def findSub (txt pat : List Char) : Option Nat :=
  findSubAux pat txt 0

/-- Whether pat occurs as a contiguous sublist of txt: Python (pat in txt). -/
def containsSub (txt pat : List Char) : Bool :=
  (findSub txt pat).isSome

/-- Python str.find: leftmost occurrence index, or -1 when absent. -/
def pyFind (txt pat : List Char) : Int :=
  match findSub txt pat with
  | some i => (i : Int)
  | none => -1

/-- Number of decimal-digit characters of a string. -/
def countDigitsStr (s : String) : Nat :=
  (s.data.filter Char.isDigit).length

/-- Lower-casing of one character: Python str.lower restricted to the
ASCII range the parser's vocabulary and patterns live in. -/
def lowerChar (c : Char) : Char :=
  if 65 ≤ c.toNat ∧ c.toNat ≤ 90 then Char.ofNat (c.toNat + 32) else c

/-- Python str.lower over a whole string. -/
def lowerStr (s : String) : String :=
  String.mk (s.data.map lowerChar)

/-- Whitespace characters stripped by Python str.strip and matched by the
regex whitespace class (ASCII range). -/
def isPyWs (c : Char) : Bool :=
  c = ' ' || c = '\t' || c = '\n' || c = '\r' ||
    c = Char.ofNat 11 || c = Char.ofNat 12

/-- Python str.strip on character lists: drop whitespace at both ends. -/
def trimChars (cs : List Char) : List Char :=
  ((cs.dropWhile isPyWs).reverse.dropWhile isPyWs).reverse

/-- Python str.strip on strings. -/
def trimStr (s : String) : String :=
  String.mk (trimChars s.data)

/-- Python s.strip().lower() as used on vocabulary entries and candidates. -/
def stripLower (s : String) : String :=
  lowerStr (trimStr s)

/-! ## Skills vocabulary loader (_load_skills_master) -/

/-- JSON content of the skills-master file: either a flat list of skill
names or a mapping whose keys are skill names. -/
inductive SkillsData where
  | list (entries : List String)
  | dict (keys : List String)

/-- The entries the loader iterates over: the list itself, or the keys of
the mapping. -/
def SkillsData.entries : SkillsData → List String
  | .list es => es
  | .dict ks => ks

/-- The built-in fallback skill list used when the skills file is absent. -/
def fallbackSkills : List String :=
  ["python", "java", "c++", "sql", "django", "flask", "react", "node.js",
   "docker", "kubernetes", "aws", "git", "nlp", "tensorflow", "pytorch"]

/-- Model of _load_skills_master: the optional argument is the parsed JSON
content of the skills file (none when the file does not exist).  Python
truthiness (if s) drops exactly the empty-string entries, after which each
surviving entry is stripped and lower-cased; the resulting Python set is
modelled as a deduplicated list. -/
def load_skills_master (fileData : Option SkillsData) : List String :=
  match fileData with
  | none => fallbackSkills.dedup
  | some d =>
    (((d.entries.filter (fun s => s ≠ "")).map stripLower)).dedup

/-! ## Skill matcher (extract_skills) -/

/-- Character class of the token pattern [a-zA-Z#+.\-]. -/
def isTokenChar (c : Char) : Bool :=
  c.isAlpha || c = '#' || c = '+' || c = '.' || c = '-'

/-- Dropping a prefix cannot lengthen a list. -/
theorem lengthDropWhileLe (p : Char → Bool) (l : List Char) :
    (l.dropWhile p).length ≤ l.length := by
  induction l with
  | nil => simp [List.dropWhile]
  | cons c rest ih =>
    simp only [List.dropWhile]
    cases p c
    · simp
    · simp
      omega

/-- Worker for tokenRuns: cur is the reversed current run of token
characters; a run is emitted when it ends, provided it has length at
least 2. -/
def tokenRunsGo (cur : List Char) : List Char → List (List Char)
  | [] => if 2 ≤ cur.length then [cur.reverse] else []
  | c :: rest =>
    if isTokenChar c then tokenRunsGo (c :: cur) rest
    else (if 2 ≤ cur.length then [cur.reverse] else []) ++ tokenRunsGo [] rest

/-- Maximal runs of token characters of length at least 2, in order: the
matches of the token pattern with findall over the lower-cased text. -/
def tokenRuns (cs : List Char) : List (List Char) :=
  tokenRunsGo [] cs

/-- Model of rapidfuzz process.extractOne: the choice with the maximal
score under the given scorer, earlier choices winning ties; none when the
choice list is empty. -/
def extractOne (scorer : String → String → Nat) (cand : String) :
    List String → Option (String × Nat)
  | [] => none
  | c :: cs =>
    match extractOne scorer cand cs with
    | none => some (c, scorer cand c)
    | some (m, sc) =>
      if sc > scorer cand c then some (m, sc) else some (c, scorer cand c)

/-- Insertion of an element into a list sorted by an integer key, keeping
earlier elements first among equal keys. -/
def insertByKey (key : String → Int) (x : String) : List String → List String
  | [] => [x]
  | y :: ys => if key x ≤ key y then x :: y :: ys else y :: insertByKey key x ys

/-- Stable insertion sort by an integer key: Python sorted with a key
function. -/
def sortByKey (key : String → Int) : List String → List String
  | [] => []
  | x :: xs => insertByKey key x (sortByKey key xs)

/-- Model of extract_skills.  The external NLP output is passed in as the
noun-phrase chunks and entity spans of the capped document (the caller
supplies them for text truncated at 100000 characters); the fuzzy scorer
(default fuzz.token_sort_ratio, 0-100 scale) is a parameter.  Python sets
are modelled as deduplicated lists. -/
def extract_skills (scorer : String → String → Nat)
    (nounChunks ents : List String) (skillsMaster : List String)
    (text : String) : List String :=
  let textLow := lowerStr text
  let exact := skillsMaster.filter (fun s => containsSub textLow.data s.data)
  let chunkCands :=
    (nounChunks.map stripLower).filter (fun c => 2 ≤ c.length && c.length ≤ 50)
  let entCands := ents.map stripLower
  let tokenCands :=
    ((tokenRuns textLow.data).filter (fun t => t.length ≤ 40)).map
      (fun t => String.mk t)
  let candidates := (chunkCands ++ entCands ++ tokenCands).dedup
  let fuzzy := candidates.filterMap (fun cand =>
    match extractOne scorer cand skillsMaster with
    | some (m, sc) => if 80 ≤ sc then some m else none
    | none => none)
  let found := (exact ++ fuzzy).dedup
  sortByKey (fun s => pyFind textLow.data s.data) found

/-! ## Education extraction (extract_education) -/

/-- The fixed degree-keyword list searched by extract_education. -/
def degreesList : List String :=
  ["bachelor", "b.sc", "b.e", "b.tech", "master", "m.sc", "m.tech", "m.e",
   "mca", "phd", "ph.d"]

/-- Model of extract_education: every degree keyword occurring as a
substring of the lower-cased text, in the fixed list's order. -/
def extract_education (text : String) : List String :=
  degreesList.filter (fun d => containsSub (lowerStr text).data d.data)

/-! ## Contact info (PHONE_RE, EMAIL_RE, extract_contact_info) -/

/-- Character class of the phone pattern body [\d\-\s()]. -/
def isPhoneSep (c : Char) : Bool :=
  c.isDigit || c = '-' || isPyWs c || c = '(' || c = ')'

/-- Greedy match of the phone core (a digit, at least seven body
characters, a final digit) at the start of the list, following the regex
engine: the repetition takes the maximal run and backtracks to the last
position whose following character is a digit. -/
def phoneCore (cs : List Char) : Option (List Char) :=
  match cs with
  | [] => none
  | c :: rest =>
    if c.isDigit then
      let maxRun := (rest.takeWhile isPhoneSep).length
      match ((List.range maxRun).filter
          (fun j => decide (7 ≤ j) && (rest.getD j ' ').isDigit)).getLast? with
      | some j => some (c :: rest.take (j + 1))
      | none => none
    else none

/-- Greedy match of the full phone pattern (optional leading plus) at the
start of the list. -/
def phoneMatchAt (cs : List Char) : Option (List Char) :=
  match cs with
  | c :: rest =>
    if c = '+' then (phoneCore rest).map (fun m => '+' :: m)
    else phoneCore (c :: rest)
  | [] => none

/-- First phone-pattern match anywhere in the text, scanning start
positions left to right: the first element of PHONE_RE.findall. -/
def searchPhone : List Char → Option (List Char)
  | [] => none
  | c :: rest =>
    match phoneMatchAt (c :: rest) with
    | some m => some m
    | none => searchPhone rest

/-- Character class of the email local part [a-zA-Z0-9_.+-]. -/
def isEmailLocal (c : Char) : Bool :=
  c.isAlphanum || c = '_' || c = '.' || c = '+' || c = '-'

/-- Character class of the email domain part [a-zA-Z0-9-]. -/
def isEmailDom (c : Char) : Bool :=
  c.isAlphanum || c = '-'

/-- Character class of the email tail [a-zA-Z0-9-.]. -/
def isEmailTail (c : Char) : Bool :=
  c.isAlphanum || c = '-' || c = '.'

/-- Greedy match of the email pattern at the start of the list.  Each
repetition takes its maximal run; since the separator characters are
outside the preceding class, the greedy engine needs no backtracking
here. -/
def emailMatchAt (cs : List Char) : Option (List Char) :=
  let loc := cs.takeWhile isEmailLocal
  let r1 := cs.dropWhile isEmailLocal
  if loc.length = 0 then none else
  match r1 with
  | '@' :: r2 =>
    let dom := r2.takeWhile isEmailDom
    let r3 := r2.dropWhile isEmailDom
    if dom.length = 0 then none else
    match r3 with
    | '.' :: r4 =>
      let tl := r4.takeWhile isEmailTail
      if tl.length = 0 then none
      else some (loc ++ '@' :: dom ++ '.' :: tl)
    | _ => none
  | _ => none

/-- First email-pattern match anywhere in the text: the first element of
EMAIL_RE.findall. -/
def searchEmail : List Char → Option (List Char)
  | [] => none
  | c :: rest =>
    match emailMatchAt (c :: rest) with
    | some m => some m
    | none => searchEmail rest

/-- Output record of extract_contact_info. -/
structure ContactInfo where
  phone : Option String
  email : Option String
deriving DecidableEq

/-- Model of extract_contact_info: the first match of each pattern, or
none. -/
def extract_contact_info (text : String) : ContactInfo :=
  { phone := (searchPhone text.data).map (fun m => String.mk m)
  , email := (searchEmail text.data).map (fun m => String.mk m) }

/-! ## Experience years (YEARS_EXP_RE and the date-range fallback) -/

/-- Numeric value of a digit run. -/
def digitsToNat (ds : List Char) : Nat :=
  ds.foldl (fun acc c => 10 * acc + (c.toNat - 48)) 0

/-- Whether one of the keyword alternatives years, yrs, year matches at the
start of the list. -/
def yearsKw (cs : List Char) : Bool :=
  ['y', 'e', 'a', 'r'].isPrefixOf cs || ['y', 'r', 's'].isPrefixOf cs

/-- Greedy match of the pattern digits, optional plus, optional
whitespace, years keyword, at the start of the (lower-cased) text; returns
the captured number. -/
def yearsExpMatchAt (cs : List Char) : Option Nat :=
  let ds := cs.takeWhile Char.isDigit
  if ds.length = 0 then none
  else
    let r1 := cs.dropWhile Char.isDigit
    let r2 := match r1 with
      | '+' :: t => t
      | _ => r1
    let r3 := r2.dropWhile isPyWs
    if yearsKw r3 then some (digitsToNat ds) else none

/-- Leftmost match of YEARS_EXP_RE over the lower-cased text: the primary
experience heuristic. -/
def searchYearsExp : List Char → Option Nat
  | [] => none
  | c :: rest =>
    match yearsExpMatchAt (c :: rest) with
    | some n => some n
    | none => searchYearsExp rest

/-- The 4-digit year 19xx or 20xx starting at the head of the list, when
present. -/
def year4At (cs : List Char) : Option Nat :=
  match cs with
  | c0 :: c1 :: c2 :: c3 :: _ =>
    if ((c0 = '2' && c1 = '0') || (c0 = '1' && c1 = '9'))
        && c2.isDigit && c3.isDigit
    then some (digitsToNat [c0, c1, c2, c3]) else none
  | _ => none

/-- Fueled worker for yearsScan; the fuel only needs to cover the list
length, since every step consumes at least one character. -/
def yearsScanGo : Nat → List Char → List Nat
  | _, [] => []
  | 0, _ => []
  | fuel + 1, c :: rest =>
    match year4At (c :: rest) with
    | some y => y :: yearsScanGo fuel (rest.drop 3)
    | none => yearsScanGo fuel rest

/-- Left-to-right non-overlapping scan for 4-digit years: findall of the
year pattern (a match consumes its four characters). -/
def yearsScan (cs : List Char) : List Nat :=
  yearsScanGo cs.length cs

/-- Last element of a list of years (zero on the empty list): Python
yrs[-1] for non-empty yrs. -/
def lastEl : List Nat → Nat
  | [] => 0
  | [x] => x
  | _ :: y :: rest => lastEl (y :: rest)

/-- Insertion into a strictly sorted list, dropping duplicates. -/
def insNoDup (x : Nat) : List Nat → List Nat
  | [] => [x]
  | y :: ys =>
    if x < y then x :: y :: ys
    else if x = y then y :: ys
    else y :: insNoDup x ys

/-- Strictly increasing list of the distinct elements: Python
sorted(set(xs)). -/
def sortedDedup (xs : List Nat) : List Nat :=
  xs.foldr insNoDup []

/-- Model of extract_experience_years: the primary X-years match on the
lower-cased text, else the span between the least and greatest distinct
scanned year when at least two exist, else none. -/
def extract_experience_years (text : String) : Option Nat :=
  match searchYearsExp (lowerStr text).data with
  | some n => some n
  | none =>
    let yrs := sortedDedup (yearsScan text.data)
    if 2 ≤ yrs.length then some (lastEl yrs - yrs.headD 0) else none

/-! ## Name extraction (extract_name) -/

/-- Character class of the fallback name pattern [A-Za-z .
apostrophe -]. -/
def isNameChar (c : Char) : Bool :=
  c.isAlpha || c = ' ' || c = '.' || c = Char.ofNat 39 || c = '-'

/-- Splitting a character list at newline characters: Python
str.splitlines for newline-terminated text. -/
def splitOnNl : List Char → List (List Char)
  | [] => [[]]
  | c :: rest =>
    if c = '\n' then [] :: splitOnNl rest
    else
      match splitOnNl rest with
      | l :: ls => (c :: l) :: ls
      | [] => [[c]]

/-- Worker for wsTokens: inTok records whether the scan is inside a
token. -/
def wsTokensGo (inTok : Bool) : List Char → Nat
  | [] => 0
  | c :: rest =>
    if isPyWs c then wsTokensGo false rest
    else (if inTok then 0 else 1) + wsTokensGo true rest

/-- Number of whitespace-separated tokens: length of Python str.split(). -/
def wsTokens (cs : List Char) : Nat :=
  wsTokensGo false cs

/-- Model of extract_name.  The named-entity recogniser is a parameter
returning the text of the first PERSON entity of the document it is given;
the source runs it on the first 2000 characters.  The fallback takes the
first non-blank line when it has at most 4 tokens and only name
characters. -/
def extract_name (nerPerson : String → Option String) (text : String) :
    Option String :=
  match nerPerson (String.mk (text.data.take 2000)) with
  | some ent => some (trimStr ent)
  | none =>
    let firstLines := ((splitOnNl text.data).map trimChars).filter
      (fun l => l ≠ [])
    match firstLines with
    | [] => none
    | cand :: _ =>
      if wsTokens cand ≤ 4 && cand.all isNameChar
      then some (String.mk cand) else none

/-! ## Text extraction (extract_text) and UTF-8 decoding -/

/-- Error-handler modes of the Python UTF-8 decoder that matter here. -/
inductive Utf8ErrMode where
  | ignoreErr
  | replaceErr
deriving DecidableEq

/-- Output contributed by one undecodable byte: nothing under ignore, the
replacement character under replace. -/
def errOut (mode : Utf8ErrMode) : List Char :=
  match mode with
  | .ignoreErr => []
  | .replaceErr => [Char.ofNat 0xFFFD]

/-- Whether a byte is a UTF-8 continuation byte. -/
def isCont (b : Nat) : Bool :=
  decide (128 ≤ b) && decide (b ≤ 191)

/-- One step of the UTF-8 decoder: the characters emitted for the
sequence led by b, and how many bytes of rest the sequence consumed.  An
ill-formed lead or truncated sequence contributes the handler output and
consumes nothing beyond the lead byte. -/
def utf8Step (mode : Utf8ErrMode) (b : Nat) (rest : List Nat) :
    List Char × Nat :=
  if b ≤ 127 then ([Char.ofNat b], 0)
  else if 194 ≤ b ∧ b ≤ 223 then
    match rest with
    | b1 :: _ =>
      if isCont b1 then ([Char.ofNat ((b - 192) * 64 + (b1 - 128))], 1)
      else (errOut mode, 0)
    | [] => (errOut mode, 0)
  else if 224 ≤ b ∧ b ≤ 239 then
    match rest with
    | b1 :: b2 :: _ =>
      if (if b = 224 then decide (160 ≤ b1) && decide (b1 ≤ 191)
          else if b = 237 then decide (128 ≤ b1) && decide (b1 ≤ 159)
          else isCont b1) && isCont b2 then
        ([Char.ofNat ((b - 224) * 4096 + (b1 - 128) * 64 + (b2 - 128))], 2)
      else (errOut mode, 0)
    | _ => (errOut mode, 0)
  else if 240 ≤ b ∧ b ≤ 244 then
    match rest with
    | b1 :: b2 :: b3 :: _ =>
      if (if b = 240 then decide (144 ≤ b1) && decide (b1 ≤ 191)
          else if b = 244 then decide (128 ≤ b1) && decide (b1 ≤ 143)
          else isCont b1) && isCont b2 && isCont b3 then
        ([Char.ofNat ((b - 240) * 262144 + (b1 - 128) * 4096 +
            (b2 - 128) * 64 + (b3 - 128))], 3)
      else (errOut mode, 0)
    | _ => (errOut mode, 0)
  else (errOut mode, 0)

/-- Fueled worker for utf8Decode; fuel covering the byte count suffices,
since every step consumes at least the lead byte. -/
def utf8DecodeGo : Nat → Utf8ErrMode → List Nat → List Char
  | _, _, [] => []
  | 0, _, _ => []
  | fuel + 1, mode, b :: rest =>
    let st := utf8Step mode b rest
    st.1 ++ utf8DecodeGo fuel mode (rest.drop st.2)

/-- UTF-8 decoder with an error-handler mode, modelling Python
bytes.decode("utf-8", errors=mode): well-formed sequences become their
scalar value, and after an ill-formed or truncated sequence the scan
resumes one byte after the offending lead byte. -/
def utf8Decode (mode : Utf8ErrMode) (bs : List Nat) : List Char :=
  utf8DecodeGo bs.length mode bs

/-- Final path component: the part after the last slash. -/
def fileName (path : String) : String :=
  String.mk ((path.data.reverse.takeWhile (fun c => c ≠ '/')).reverse)

/-- Model of pathlib suffix: from the last dot of the final component,
when that dot is neither its first nor its last character. -/
def pathSuffix (path : String) : String :=
  let name := (fileName path).data
  match ((List.range name.length).filter
      (fun i => name.getD i ' ' = '.')).getLast? with
  | some i =>
    if 0 < i ∧ i < name.length - 1 then String.mk (name.drop i) else ""
  | none => ""

/-- The one error that escapes the parser: the input path does not
exist. -/
inductive ParseError where
  | notFound (path : String)
deriving DecidableEq

/-- Model of extract_text.  The file system is a parameter mapping a path
to its byte content when it exists; the pdfplumber and docx2txt pipelines
(with their internal best-effort exception absorption) are parameters
producing the text they recover from the bytes.  Unrecognised suffixes are
read as UTF-8 with the ignore error handler. -/
def extract_text (fs : String → Option (List Nat))
    (pdfExtract docxExtract : List Nat → String) (path : String) :
    Except ParseError String :=
  match fs path with
  | none => .error (.notFound path)
  | some bytes =>
    let suffix := lowerStr (pathSuffix path)
    if suffix = ".pdf" then .ok (pdfExtract bytes)
    else if suffix ∈ ([".docx", ".doc"] : List String) then
      .ok (docxExtract bytes)
    else .ok (String.mk (utf8Decode .ignoreErr bytes))

/-! ## Profile assembly (parse_resume) -/

/-- The normalized profile record parse_resume returns. -/
structure CandidateProfile where
  raw_text : String
  name : Option String
  phone : Option String
  email : Option String
  experience_years : Option Nat
  skills : List String
  education : List String

/-- Model of parse_resume: extract the text (propagating only the
not-found error), then run every fact extractor and the skill matcher over
it.  The NLP outputs consumed by extract_skills are produced by the
parameter functions applied to the 100000-character cap of the text, and
the vocabulary comes from the loader. -/
def parse_resume (fs : String → Option (List Nat))
    (pdfExtract docxExtract : List Nat → String)
    (nerPerson : String → Option String)
    (scorer : String → String → Nat)
    (nounChunksOf entsOf : String → List String)
    (fileData : Option SkillsData) (path : String) :
    Except ParseError CandidateProfile :=
  match extract_text fs pdfExtract docxExtract path with
  | .error e => .error e
  | .ok text =>
    let capped := String.mk (text.data.take 100000)
    let ci := extract_contact_info text
    .ok { raw_text := text
        , name := extract_name nerPerson text
        , phone := ci.phone
        , email := ci.email
        , experience_years := extract_experience_years text
        , skills := extract_skills scorer (nounChunksOf capped) (entsOf capped)
            (load_skills_master fileData) text
        , education := extract_education text }

/-! ## Shared lemmas -/

/-- Char.ofNat evaluates to its argument at valid code points. -/
theorem toNatOfNatValid (n : Nat) (h : n.isValidChar) :
    (Char.ofNat n).toNat = n := by
  unfold Char.ofNat
  rw [dif_pos h]
  rfl

/-- Lowering an already lower-cased character changes nothing. -/
theorem lowerCharIdem (c : Char) : lowerChar (lowerChar c) = lowerChar c := by
  have key : ∀ d : Char, ¬(65 ≤ d.toNat ∧ d.toNat ≤ 90) → lowerChar d = d := by
    intro d hd
    unfold lowerChar
    rw [if_neg hd]
  by_cases h : 65 ≤ c.toNat ∧ c.toNat ≤ 90
  · have h1 : lowerChar c = Char.ofNat (c.toNat + 32) := by
      unfold lowerChar
      rw [if_pos h]
    rw [h1]
    apply key
    rw [toNatOfNatValid _ (by left ; omega)]
    omega
  · rw [key c h, key c h]

/-- lowerStr is idempotent. -/
theorem lowerStrIdem (s : String) : lowerStr (lowerStr s) = lowerStr s := by
  unfold lowerStr
  simp only [List.map_map]
  congr 1
  apply List.map_congr_left
  intro a _
  exact lowerCharIdem a

/-- A string whose lower-casing is empty is empty. -/
theorem eqEmptyOfLowerEqEmpty (s : String) (h : lowerStr s = "") : s = "" := by
  apply String.ext
  have hd := congrArg String.data h
  unfold lowerStr at hd
  exact List.map_eq_nil_iff.mp hd

/-- Members of the loaded vocabulary are already lower-cased. -/
theorem loadSkillsMasterLower (d : Option SkillsData) :
    ∀ s ∈ load_skills_master d, lowerStr s = s := by
  intro s hs
  match d with
  | none =>
    revert hs
    have h : ∀ s ∈ load_skills_master none, lowerStr s = s := by decide
    exact h s
  | some dd =>
    unfold load_skills_master at hs
    rw [List.mem_dedup] at hs
    obtain ⟨e, _, rfl⟩ := List.mem_map.mp hs
    exact lowerStrIdem (trimStr e)

/-! ## C1: vocabulary members after normalization -/

/-- C1 counterexample: a whitespace-only entry passes the Python
truthiness filter (it is non-empty before stripping) and is kept as the
empty string after normalization, so the loaded vocabulary can contain an
empty member. -/
theorem C1_counterexample :
    load_skills_master (some (SkillsData.list [" ", "python"]))
      = ["", "python"] := by decide

/-- C1 (amended): members of the fallback vocabulary are non-empty; every
member loaded from a file is the trimmed lower-casing of a non-empty
source entry; consequently all members are non-empty whenever no source
entry is whitespace-only. -/
theorem C1_amended :
    (∀ s, s ∈ load_skills_master none → s ≠ "") ∧
    (∀ d s, s ∈ load_skills_master (some d) →
      ∃ e, e ∈ d.entries ∧ e ≠ "" ∧ s = stripLower e) ∧
    (∀ d, (∀ e, e ∈ d.entries → trimStr e ≠ "") →
      ∀ s, s ∈ load_skills_master (some d) → s ≠ "") := by
  refine ⟨by decide, ?_, ?_⟩
  · intro d s hs
    unfold load_skills_master at hs
    rw [List.mem_dedup] at hs
    obtain ⟨e, he, rfl⟩ := List.mem_map.mp hs
    rw [List.mem_filter] at he
    exact ⟨e, he.1, by simpa using he.2, rfl⟩
  · intro d hne s hs
    unfold load_skills_master at hs
    rw [List.mem_dedup] at hs
    obtain ⟨e, he, rfl⟩ := List.mem_map.mp hs
    rw [List.mem_filter] at he
    intro hemp
    exact hne e he.1 (eqEmptyOfLowerEqEmpty _ hemp)

/-- C1 witness: the amended theorem applied to a concrete single-entry
file. -/
theorem C1_witness :
    ∃ e, e ∈ (SkillsData.list ["  Python "]).entries ∧ e ≠ "" ∧
      "python" = stripLower e :=
  C1_amended.2.1 (SkillsData.list ["  Python "]) "python" (by decide)

/-! ## Sorting and fuzzy-match lemmas -/

/-- Inserting by key is a permutation of consing. -/
theorem insertByKeyPerm (key : String → Int) (x : String) (l : List String) :
    List.Perm (insertByKey key x l) (x :: l) := by
  induction l with
  | nil => simp [insertByKey]
  | cons y ys ih =>
    unfold insertByKey
    by_cases h : key x ≤ key y
    · rw [if_pos h]
    · rw [if_neg h]
      exact (List.Perm.cons y ih).trans (List.Perm.swap x y ys)

/-- Sorting by key permutes the list. -/
theorem sortByKeyPerm (key : String → Int) (l : List String) :
    List.Perm (sortByKey key l) l := by
  induction l with
  | nil => simp [sortByKey]
  | cons x xs ih =>
    unfold sortByKey
    exact (insertByKeyPerm key x (sortByKey key xs)).trans (List.Perm.cons x ih)

/-- Inserting by key preserves sortedness by that key. -/
theorem insertByKeyPairwise (key : String → Int) (x : String)
    (l : List String) (h : List.Pairwise (fun a b => key a ≤ key b) l) :
    List.Pairwise (fun a b => key a ≤ key b) (insertByKey key x l) := by
  induction l with
  | nil => simp [insertByKey]
  | cons y ys ih =>
    obtain ⟨hy, hys⟩ := List.pairwise_cons.mp h
    unfold insertByKey
    by_cases hxy : key x ≤ key y
    · rw [if_pos hxy]
      apply List.pairwise_cons.mpr
      refine ⟨?_, h⟩
      intro b hb
      rcases List.mem_cons.mp hb with rfl | hb2
      · exact hxy
      · exact le_trans hxy (hy b hb2)
    · rw [if_neg hxy]
      apply List.pairwise_cons.mpr
      refine ⟨?_, ih hys⟩
      intro b hb
      have hb2 : b ∈ x :: ys := (insertByKeyPerm key x ys).mem_iff.mp hb
      rcases List.mem_cons.mp hb2 with rfl | hb3
      · exact le_of_not_le hxy
      · exact hy b hb3

/-- Sorting by key yields a list sorted by that key. -/
theorem sortByKeyPairwise (key : String → Int) (l : List String) :
    List.Pairwise (fun a b => key a ≤ key b) (sortByKey key l) := by
  induction l with
  | nil => simp [sortByKey]
  | cons x xs ih =>
    unfold sortByKey
    exact insertByKeyPairwise key x _ ih

/-- The best fuzzy match comes from the choice list. -/
theorem extractOneMem (scorer : String → String → Nat) (cand : String) :
    ∀ (choices : List String) (m : String) (sc : Nat),
      extractOne scorer cand choices = some (m, sc) → m ∈ choices := by
  intro choices
  induction choices with
  | nil =>
    intro m sc h
    simp [extractOne] at h
  | cons c cs ih =>
    intro m sc h
    unfold extractOne at h
    cases hrec : extractOne scorer cand cs with
    | none =>
      rw [hrec] at h
      simp only [Option.some.injEq, Prod.mk.injEq] at h
      exact List.mem_cons.mpr (Or.inl h.1.symm)
    | some p =>
      obtain ⟨m0, sc0⟩ := p
      rw [hrec] at h
      dsimp only at h
      by_cases hgt : sc0 > scorer cand c
      · rw [if_pos hgt] at h
        simp only [Option.some.injEq, Prod.mk.injEq] at h
        exact List.mem_cons.mpr (Or.inr (h.1 ▸ ih m0 sc0 hrec))
      · rw [if_neg hgt] at h
        simp only [Option.some.injEq, Prod.mk.injEq] at h
        exact List.mem_cons.mpr (Or.inl h.1.symm)

/-- Every extracted skill is a vocabulary member. -/
theorem extractSkillsSubset (scorer : String → String → Nat)
    (nounChunks ents skillsMaster : List String) (text : String) :
    ∀ s ∈ extract_skills scorer nounChunks ents skillsMaster text,
      s ∈ skillsMaster := by
  intro s hs
  unfold extract_skills at hs
  have hs2 := (sortByKeyPerm _ _).mem_iff.mp hs
  rw [List.mem_dedup] at hs2
  rcases List.mem_append.mp hs2 with hex | hfz
  · exact (List.mem_filter.mp hex).1
  · obtain ⟨cand, _, hf⟩ := List.mem_filterMap.mp hfz
    cases hone : extractOne scorer cand skillsMaster with
    | none =>
      rw [hone] at hf
      simp at hf
    | some p =>
      obtain ⟨m, sc⟩ := p
      rw [hone] at hf
      dsimp only at hf
      by_cases hth : 80 ≤ sc
      · rw [if_pos hth] at hf
        simp only [Option.some.injEq] at hf
        exact hf ▸ extractOneMem scorer cand skillsMaster m sc hone
      · rw [if_neg hth] at hf
        simp at hf

/-- The extracted skill list has no duplicates. -/
theorem extractSkillsNodup (scorer : String → String → Nat)
    (nounChunks ents skillsMaster : List String) (text : String) :
    (extract_skills scorer nounChunks ents skillsMaster text).Nodup := by
  unfold extract_skills
  exact (sortByKeyPerm _ _).symm.nodup (List.nodup_dedup _)

/-! ## C2: ordering of the skill list -/

/-- C2: the list returned by extract_skills is sorted by the position of
the skill string's first occurrence in the lower-cased text (pyFind, which
puts vocabulary strings that do not occur literally in front with key -1);
the sort key of a fuzzy-accepted skill is computed from the matched
vocabulary string itself, never from the candidate phrase. -/
theorem C2_skills_sorted (scorer : String → String → Nat)
    (nounChunks ents skillsMaster : List String) (text : String) :
    List.Pairwise
      (fun a b => pyFind (lowerStr text).data a.data ≤
        pyFind (lowerStr text).data b.data)
      (extract_skills scorer nounChunks ents skillsMaster text) := by
  unfold extract_skills
  exact sortByKeyPairwise _ _

/-! ## C6: completeness of the exact pass -/

/-- C6: a vocabulary term occurring literally in the lower-cased text is
always in the extracted skill list. -/
theorem C6_exact_pass_complete (scorer : String → String → Nat)
    (nounChunks ents skillsMaster : List String) (text : String)
    (term : String) (hmem : term ∈ skillsMaster)
    (hsub : containsSub (lowerStr text).data term.data = true) :
    term ∈ extract_skills scorer nounChunks ents skillsMaster text := by
  unfold extract_skills
  rw [(sortByKeyPerm _ _).mem_iff, List.mem_dedup]
  exact List.mem_append_left _ (List.mem_filter.mpr ⟨hmem, hsub⟩)

/-- C6 witness: the exact pass on a concrete text and one-word
vocabulary. -/
theorem C6_witness :
    "python" ∈ extract_skills (fun _ _ => 0) [] [] ["python"]
      "I know Python" :=
  C6_exact_pass_complete (fun _ _ => 0) [] [] ["python"] "I know Python"
    "python" (by decide) (by decide)

/-! ## C7: skill list only from vocabulary, without duplicates -/

/-- C7: every extracted skill is a vocabulary member, and the list has no
duplicates even up to case (for the lower-cased vocabularies the loader
produces). -/
theorem C7_members_nodup (scorer : String → String → Nat)
    (nounChunks ents skillsMaster : List String) (text : String)
    (hlow : ∀ s ∈ skillsMaster, lowerStr s = s) :
    (∀ s ∈ extract_skills scorer nounChunks ents skillsMaster text,
      s ∈ skillsMaster) ∧
    ((extract_skills scorer nounChunks ents skillsMaster text).map
      lowerStr).Nodup := by
  refine ⟨extractSkillsSubset scorer nounChunks ents skillsMaster text, ?_⟩
  have hmap : (extract_skills scorer nounChunks ents skillsMaster text).map
      lowerStr = extract_skills scorer nounChunks ents skillsMaster text := by
    have h1 : (extract_skills scorer nounChunks ents skillsMaster text).map
        lowerStr = (extract_skills scorer nounChunks ents skillsMaster
          text).map id := by
      apply List.map_congr_left
      intro a ha
      exact hlow a (extractSkillsSubset scorer nounChunks ents skillsMaster
        text a ha)
    rw [h1, List.map_id]
  rw [hmap]
  exact extractSkillsNodup scorer nounChunks ents skillsMaster text

/-- C7 witness: the theorem instantiated on a concrete lower-cased
vocabulary. -/
theorem C7_witness :
    (∀ s ∈ extract_skills (fun _ _ => 0) [] [] ["python", "sql"]
      "sql and python", s ∈ ["python", "sql"]) ∧
    ((extract_skills (fun _ _ => 0) [] [] ["python", "sql"]
      "sql and python").map lowerStr).Nodup :=
  C7_members_nodup (fun _ _ => 0) [] [] ["python", "sql"] "sql and python"
    (by decide)

/-! ## C10: skills and education entries are lower-case -/

/-- C10: with the vocabulary produced by the loader, every extracted skill
is entirely lower-case, and every education entry comes from the fixed
lower-case degree list. -/
theorem C10_lowercase (scorer : String → String → Nat)
    (nounChunks ents : List String) (fileData : Option SkillsData)
    (text : String) :
    (∀ s ∈ extract_skills scorer nounChunks ents
      (load_skills_master fileData) text, lowerStr s = s) ∧
    (∀ e ∈ extract_education text, e ∈ degreesList ∧ lowerStr e = e) := by
  constructor
  · intro s hs
    exact loadSkillsMasterLower fileData s
      (extractSkillsSubset scorer nounChunks ents _ text s hs)
  · intro e he
    unfold extract_education at he
    rw [List.mem_filter] at he
    refine ⟨he.1, ?_⟩
    have hall : ∀ d ∈ degreesList, lowerStr d = d := by decide
    exact hall e he.1

/-- C10 witness: lower-case outputs on a concrete text with the fallback
vocabulary. -/
theorem C10_witness :
    lowerStr "python" = "python" ∧
    ("b.tech" ∈ degreesList ∧ lowerStr "b.tech" = "b.tech") :=
  ⟨(C10_lowercase (fun _ _ => 0) [] [] none "Python and B.Tech").1 "python"
      (by decide),
   (C10_lowercase (fun _ _ => 0) [] [] none "Python and B.Tech").2 "b.tech"
      (by decide)⟩

/-! ## C3: shape of extracted phone numbers -/

/-- Taking a prefix cannot lengthen a list. -/
theorem lengthTakeWhileLe (p : Char → Bool) (l : List Char) :
    (l.takeWhile p).length ≤ l.length := by
  induction l with
  | nil => simp [List.takeWhile]
  | cons c rest ih =>
    simp only [List.takeWhile]
    cases p c
    · simp
    · simpa using ih

/-- Any match of the phone core starts with a digit, ends with a digit at
offset at least 8, and so carries at least two digits over at least nine
characters. -/
theorem phoneCoreShape (cs m : List Char) (h : phoneCore cs = some m) :
    2 ≤ (m.filter Char.isDigit).length ∧ 9 ≤ m.length := by
  unfold phoneCore at h
  match cs, h with
  | c :: rest, h =>
    dsimp only at h
    by_cases hd : c.isDigit
    · rw [if_pos hd] at h
      cases hg : ((List.range (rest.takeWhile isPhoneSep).length).filter
          (fun j => decide (7 ≤ j) && (rest.getD j ' ').isDigit)).getLast? with
      | none =>
        rw [hg] at h
        exact absurd h (by simp)
      | some j =>
        rw [hg] at h
        simp only [Option.some.injEq] at h
        obtain ⟨ys, hys⟩ := List.getLast?_eq_some_iff.mp hg
        have hjmem : j ∈ (List.range (rest.takeWhile isPhoneSep).length).filter
            (fun j => decide (7 ≤ j) && (rest.getD j ' ').isDigit) := by
          rw [hys]
          exact List.mem_append_right _ (List.mem_singleton_self j)
        rw [List.mem_filter, List.mem_range] at hjmem
        obtain ⟨hjlt, hjp⟩ := hjmem
        rw [Bool.and_eq_true] at hjp
        have hj7 : 7 ≤ j := decide_eq_true_iff.mp hjp.1
        have hjdig : (rest.getD j ' ').isDigit = true := hjp.2
        have hjrest : j < rest.length :=
          lt_of_lt_of_le hjlt (lengthTakeWhileLe isPhoneSep rest)
        subst h
        constructor
        · have htk : (List.take (j + 1) rest).length = j + 1 := by
            rw [List.length_take]
            omega
          have hjtake : j < (List.take (j + 1) rest).length := by omega
          have hmem : rest.getD j ' ' ∈ List.take (j + 1) rest := by
            rw [List.getD_eq_getElem rest ' ' hjrest]
            have := List.getElem_take rest (j := j + 1) (i := j) (h := hjtake)
            rw [← this]
            exact List.getElem_mem hjtake
          have h1 : rest.getD j ' ' ∈ (List.take (j + 1) rest).filter
              Char.isDigit := List.mem_filter.mpr ⟨hmem, hjdig⟩
          have h2 : 0 < ((List.take (j + 1) rest).filter Char.isDigit).length :=
            List.length_pos.mpr (List.ne_nil_of_mem h1)
          have h3 : List.filter Char.isDigit (c :: List.take (j + 1) rest)
              = c :: List.filter Char.isDigit (List.take (j + 1) rest) := by
            simp [List.filter_cons, hd]
          rw [h3, List.length_cons]
          omega
        · simp only [List.length_cons, List.length_take]
          omega
    · rw [if_neg hd] at h
      exact absurd h (by simp)

/-- The phone shape transfers through the optional leading plus. -/
theorem phoneMatchAtShape (cs m : List Char)
    (h : phoneMatchAt cs = some m) :
    2 ≤ (m.filter Char.isDigit).length ∧ 9 ≤ m.length := by
  unfold phoneMatchAt at h
  match cs, h with
  | c :: rest, h =>
    dsimp only at h
    by_cases hp : c = '+'
    · rw [if_pos hp] at h
      obtain ⟨m0, hm0, rfl⟩ := Option.map_eq_some'.mp h
      obtain ⟨hd, hl⟩ := phoneCoreShape rest m0 hm0
      constructor
      · simpa [List.filter_cons] using hd
      · simp only [List.length_cons]
        omega
    · rw [if_neg hp] at h
      exact phoneCoreShape (c :: rest) m h

/-- The phone shape holds for a match found anywhere in the text. -/
theorem searchPhoneShape (cs : List Char) :
    ∀ m, searchPhone cs = some m →
      2 ≤ (m.filter Char.isDigit).length ∧ 9 ≤ m.length := by
  induction cs with
  | nil =>
    intro m h
    exact absurd h (by simp [searchPhone])
  | cons c rest ih =>
    intro m h
    unfold searchPhone at h
    cases hm : phoneMatchAt (c :: rest) with
    | some m0 =>
      rw [hm] at h
      simp only [Option.some.injEq] at h
      exact h ▸ phoneMatchAtShape (c :: rest) m0 hm
    | none =>
      rw [hm] at h
      exact ih m h

/-- C3 counterexample: a phone pattern match with only two digit
characters, so extract_contact_info can return a phone value with fewer
than eight digits. -/
theorem C3_counterexample :
    (extract_contact_info "1-------2").phone = some "1-------2" ∧
    countDigitsStr "1-------2" = 2 := by
  constructor
  · decide
  · decide

/-- C3 (amended): a non-none phone value always contains at least two
digit characters and is at least nine characters long (the pattern
guarantees a leading digit, a body of at least seven separator-or-digit
characters, and a final digit, but no lower bound of eight digits). -/
theorem C3_amended (text : String) (p : String)
    (h : (extract_contact_info text).phone = some p) :
    2 ≤ countDigitsStr p ∧ 9 ≤ p.length := by
  unfold extract_contact_info at h
  dsimp only at h
  obtain ⟨m, hm, rfl⟩ := Option.map_eq_some'.mp h
  exact searchPhoneShape text.data m hm

/-- C3 witness: the amended bound on a concrete matched number. -/
theorem C3_witness :
    2 ≤ countDigitsStr "12-34-56-78" ∧ 9 ≤ ("12-34-56-78" : String).length :=
  C3_amended "call 12-34-56-78 now" "12-34-56-78" (by decide)

/-! ## C8, C9: the experience-years date-range fallback -/

/-- Membership across duplicate-free insertion. -/
theorem memInsNoDup (x y : Nat) (l : List Nat) :
    y ∈ insNoDup x l ↔ y = x ∨ y ∈ l := by
  induction l with
  | nil => simp [insNoDup]
  | cons z zs ih =>
    unfold insNoDup
    by_cases h1 : x < z
    · rw [if_pos h1]
      simp [List.mem_cons]
    · rw [if_neg h1]
      by_cases h2 : x = z
      · subst h2
        rw [if_pos rfl]
        simp [List.mem_cons]
      · rw [if_neg h2]
        simp [List.mem_cons, ih]
        tauto

/-- sortedDedup preserves membership. -/
theorem memSortedDedup (xs : List Nat) (y : Nat) :
    y ∈ sortedDedup xs ↔ y ∈ xs := by
  induction xs with
  | nil => simp [sortedDedup]
  | cons x t ih =>
    unfold sortedDedup at *
    simp only [List.foldr_cons]
    rw [memInsNoDup]
    simp [ih]

/-- Duplicate-free insertion preserves strict sortedness. -/
theorem pairwiseInsNoDup (x : Nat) (l : List Nat)
    (h : List.Pairwise (fun a b => a < b) l) :
    List.Pairwise (fun a b => a < b) (insNoDup x l) := by
  induction l with
  | nil => simp [insNoDup]
  | cons z zs ih =>
    obtain ⟨hz, hzs⟩ := List.pairwise_cons.mp h
    unfold insNoDup
    by_cases h1 : x < z
    · rw [if_pos h1]
      apply List.pairwise_cons.mpr
      refine ⟨?_, h⟩
      intro b hb
      rcases List.mem_cons.mp hb with rfl | hb2
      · exact h1
      · exact lt_trans h1 (hz b hb2)
    · rw [if_neg h1]
      by_cases h2 : x = z
      · rw [if_pos h2]
        exact h
      · rw [if_neg h2]
        apply List.pairwise_cons.mpr
        refine ⟨?_, ih hzs⟩
        intro b hb
        rcases (memInsNoDup x b zs).mp hb with rfl | hb2
        · omega
        · exact hz b hb2

/-- sortedDedup yields a strictly sorted list. -/
theorem pairwiseSortedDedup (xs : List Nat) :
    List.Pairwise (fun a b => a < b) (sortedDedup xs) := by
  unfold sortedDedup
  induction xs with
  | nil => simp
  | cons x t ih =>
    simp only [List.foldr_cons]
    exact pairwiseInsNoDup x _ ih

/-- The last element of a non-empty list is a member. -/
theorem lastElMem : ∀ (l : List Nat), l ≠ [] → lastEl l ∈ l
  | [], h => absurd rfl h
  | [x], _ => by simp [lastEl]
  | x :: y :: rest, _ => by
    unfold lastEl
    exact List.mem_cons_of_mem x (lastElMem (y :: rest) (by simp))

/-- In a strictly sorted list everything is at most the last element. -/
theorem sortedLastGe : ∀ (l : List Nat),
    List.Pairwise (fun a b => a < b) l → ∀ y ∈ l, y ≤ lastEl l
  | [], _, y, hy => absurd hy (by simp)
  | [x], _, y, hy => by
    simp only [List.mem_singleton] at hy
    simp [lastEl, hy]
  | x :: z :: rest, h, y, hy => by
    obtain ⟨hx, ht⟩ := List.pairwise_cons.mp h
    unfold lastEl
    rcases List.mem_cons.mp hy with rfl | hy2
    · exact le_of_lt (hx _ (lastElMem (z :: rest) (by simp)))
    · exact sortedLastGe (z :: rest) ht y hy2

/-- In a strictly sorted list everything is at least the head. -/
theorem sortedHeadLe (l : List Nat)
    (h : List.Pairwise (fun a b => a < b) l) :
    ∀ y ∈ l, l.headD 0 ≤ y := by
  cases l with
  | nil => simp
  | cons a t =>
    intro y hy
    obtain ⟨ha, _⟩ := List.pairwise_cons.mp h
    rcases List.mem_cons.mp hy with rfl | hy2
    · simp
    · exact le_of_lt (ha y hy2)

/-- A strictly sorted list of length at least two has its head strictly
below its last element. -/
theorem sortedHeadLtLast (l : List Nat)
    (h : List.Pairwise (fun a b => a < b) l) (hlen : 2 ≤ l.length) :
    l.headD 0 < lastEl l := by
  match l, hlen with
  | a :: b :: t, _ =>
    obtain ⟨ha, _⟩ := List.pairwise_cons.mp h
    have hl : lastEl (a :: b :: t) = lastEl (b :: t) := rfl
    rw [hl]
    exact ha _ (lastElMem (b :: t) (by simp))

/-- The distinct 4-digit year substrings at every position of the text:
the claim's reading of "all 4-digit substrings matching 19xx or 20xx",
which counts overlapping occurrences the non-overlapping findall scan of
the code skips. -/
def allYearSubstrings : List Char → List Nat
  | [] => []
  | c :: rest =>
    (match year4At (c :: rest) with
     | some y => [y]
     | none => []) ++ allYearSubstrings rest

/-- C8 counterexample: in the text 192019 the set of all 4-digit year
substrings is the two-element set containing 1920 and 2019 (so the claim
demands the span 99), but the non-overlapping scan of the code sees only
1920 and extract_experience_years returns none. -/
theorem C8_counterexample :
    sortedDedup (allYearSubstrings ("192019" : String).data)
      = [1920, 2019] ∧
    sortedDedup (yearsScan ("192019" : String).data) = [1920] ∧
    extract_experience_years "192019" = none := by
  refine ⟨by decide, by decide, by decide⟩

/-- C8 (amended): with no primary match, when the left-to-right
non-overlapping scan for 4-digit years finds at least two distinct years,
the result is the difference between the greatest and the least scanned
year. -/
theorem C8_amended (text : String)
    (hnp : searchYearsExp (lowerStr text).data = none)
    (h2 : 2 ≤ (sortedDedup (yearsScan text.data)).length) :
    ∃ M m, M ∈ yearsScan text.data ∧ m ∈ yearsScan text.data ∧
      (∀ y ∈ yearsScan text.data, m ≤ y ∧ y ≤ M) ∧
      extract_experience_years text = some (M - m) := by
  have hne : sortedDedup (yearsScan text.data) ≠ [] := by
    intro hnil
    rw [hnil] at h2
    simp at h2
  refine ⟨lastEl (sortedDedup (yearsScan text.data)),
    (sortedDedup (yearsScan text.data)).headD 0, ?_, ?_, ?_, ?_⟩
  · exact (memSortedDedup _ _).mp (lastElMem _ hne)
  · have hh : (sortedDedup (yearsScan text.data)).headD 0
        ∈ sortedDedup (yearsScan text.data) := by
      cases hc : sortedDedup (yearsScan text.data) with
      | nil => exact absurd hc hne
      | cons a t => simp
    exact (memSortedDedup _ _).mp hh
  · intro y hy
    have hy2 : y ∈ sortedDedup (yearsScan text.data) :=
      (memSortedDedup _ y).mpr hy
    exact ⟨sortedHeadLe _ (pairwiseSortedDedup _) y hy2,
      sortedLastGe _ (pairwiseSortedDedup _) y hy2⟩
  · unfold extract_experience_years
    rw [hnp]
    dsimp only
    rw [if_pos h2]

/-- C8 witness: the spec's own example, two distinct years spanning
three. -/
theorem C8_witness :
    extract_experience_years "from 2018 to 2021" = some 3 ∧
    (∃ M m, M ∈ yearsScan ("from 2018 to 2021" : String).data ∧
      m ∈ yearsScan ("from 2018 to 2021" : String).data ∧
      (∀ y ∈ yearsScan ("from 2018 to 2021" : String).data,
        m ≤ y ∧ y ≤ M) ∧
      extract_experience_years "from 2018 to 2021" = some (M - m)) :=
  ⟨by decide, C8_amended "from 2018 to 2021" (by decide) (by decide)⟩

/-- C9: every value produced by the date-range fallback (primary pattern
absent, at least two distinct years) is strictly positive. -/
theorem C9_fallback_positive (text : String) (v : Nat)
    (hnp : searchYearsExp (lowerStr text).data = none)
    (hv : extract_experience_years text = some v) :
    1 ≤ v := by
  unfold extract_experience_years at hv
  rw [hnp] at hv
  dsimp only at hv
  by_cases h2 : 2 ≤ (sortedDedup (yearsScan text.data)).length
  · rw [if_pos h2] at hv
    simp only [Option.some.injEq] at hv
    have hlt := sortedHeadLtLast (sortedDedup (yearsScan text.data))
      (pairwiseSortedDedup _) h2
    omega
  · rw [if_neg h2] at hv
    exact absurd hv (by simp)

/-- C9 witness: the positivity bound on a concrete fallback result. -/
theorem C9_witness :
    searchYearsExp (lowerStr "2018 then 2021").data = none ∧
    extract_experience_years "2018 then 2021" = some 3 ∧ 1 ≤ 3 :=
  ⟨by decide, by decide,
    C9_fallback_positive "2018 then 2021" 3 (by decide) (by decide)⟩

/-! ## C4: plain-text fallback of the text extractor -/

/-- C4 (amended): for an existing file whose lower-cased suffix is none of
the recognised document suffixes, extract_text reads the bytes as UTF-8
with the ignore error handler, so undecodable bytes are dropped (not
replaced) and the read never fails. -/
theorem C4_amended (fs : String → Option (List Nat))
    (pdfExtract docxExtract : List Nat → String) (path : String)
    (bytes : List Nat) (hex : fs path = some bytes)
    (hsuf : lowerStr (pathSuffix path) ∉
      ([".pdf", ".docx", ".doc"] : List String)) :
    extract_text fs pdfExtract docxExtract path
      = Except.ok (String.mk (utf8Decode .ignoreErr bytes)) := by
  simp only [List.mem_cons, List.mem_singleton, not_or] at hsuf
  obtain ⟨h1, h2, h3⟩ := hsuf
  unfold extract_text
  rw [hex]
  dsimp only
  rw [if_neg h1, if_neg (by simp [h2, h3])]

/-- C4 witness: an upper-case unrecognised suffix routed to the UTF-8
reader. -/
theorem C4_witness :
    extract_text (fun _ => some [104, 105]) (fun _ => "") (fun _ => "")
      "r.TXT" = Except.ok "hi" := by
  rw [C4_amended (fun _ => some [104, 105]) (fun _ => "") (fun _ => "")
    "r.TXT" [104, 105] rfl (by decide)]
  rfl

/-- C4 counterexample: a byte that is undecodable as UTF-8 is dropped by
the code (ignore handler), not replaced with the replacement character as
the claim states, so the plain-text read differs from a replacing read. -/
theorem C4_counterexample :
    extract_text (fun _ => some [97, 255]) (fun _ => "") (fun _ => "")
      "a.txt" = Except.ok "a" ∧
    String.mk (utf8Decode .replaceErr [97, 255])
      = String.mk [Char.ofNat 97, Char.ofNat 0xFFFD] ∧
    ("a" : String) ≠ String.mk [Char.ofNat 97, Char.ofNat 0xFFFD] :=
  ⟨by rfl, by decide, by decide⟩

/-! ## C5: missing path is the only propagated error -/

/-- An existing file always yields some extracted text. -/
theorem extractTextSome (fs : String → Option (List Nat))
    (pdfExtract docxExtract : List Nat → String) (path : String)
    (bytes : List Nat) (h : fs path = some bytes) :
    ∃ t, extract_text fs pdfExtract docxExtract path = Except.ok t := by
  unfold extract_text
  rw [h]
  dsimp only
  by_cases h1 : lowerStr (pathSuffix path) = ".pdf"
  · rw [if_pos h1]
    exact ⟨_, rfl⟩
  · rw [if_neg h1]
    by_cases h2 : lowerStr (pathSuffix path) ∈ ([".docx", ".doc"] : List String)
    · rw [if_pos h2]
      exact ⟨_, rfl⟩
    · rw [if_neg h2]
      exact ⟨_, rfl⟩

/-- A missing file makes extract_text fail with the not-found error. -/
theorem extractTextNone (fs : String → Option (List Nat))
    (pdfExtract docxExtract : List Nat → String) (path : String)
    (h : fs path = none) :
    extract_text fs pdfExtract docxExtract path
      = Except.error (ParseError.notFound path) := by
  unfold extract_text
  rw [h]

/-- C5: parse_resume fails exactly when the path is missing, the failure
carries no partial profile and is the not-found error, and every existing
file produces a full profile. -/
theorem C5_missing_path (fs : String → Option (List Nat))
    (pdfExtract docxExtract : List Nat → String)
    (nerPerson : String → Option String) (scorer : String → String → Nat)
    (nounChunksOf entsOf : String → List String)
    (fileData : Option SkillsData) (path : String) :
    (parse_resume fs pdfExtract docxExtract nerPerson scorer nounChunksOf
        entsOf fileData path = Except.error (ParseError.notFound path)
      ↔ fs path = none) ∧
    (∀ e, parse_resume fs pdfExtract docxExtract nerPerson scorer
        nounChunksOf entsOf fileData path = Except.error e →
      e = ParseError.notFound path ∧ fs path = none) ∧
    (∀ bytes, fs path = some bytes →
      ∃ profile, parse_resume fs pdfExtract docxExtract nerPerson scorer
        nounChunksOf entsOf fileData path = Except.ok profile) := by
  cases hfs : fs path with
  | none =>
    have het := extractTextNone fs pdfExtract docxExtract path hfs
    have hpr : parse_resume fs pdfExtract docxExtract nerPerson scorer
        nounChunksOf entsOf fileData path
        = Except.error (ParseError.notFound path) := by
      unfold parse_resume
      rw [het]
    refine ⟨⟨fun _ => rfl, fun _ => hpr⟩, ?_, ?_⟩
    · intro e he
      rw [hpr] at he
      simp only [Except.error.injEq] at he
      exact ⟨he.symm, rfl⟩
    · intro bytes hb
      exact absurd hb (by simp)
  | some bytes =>
    obtain ⟨t, het⟩ := extractTextSome fs pdfExtract docxExtract path bytes hfs
    have hpr : ∃ profile, parse_resume fs pdfExtract docxExtract nerPerson
        scorer nounChunksOf entsOf fileData path = Except.ok profile := by
      unfold parse_resume
      rw [het]
      exact ⟨_, rfl⟩
    obtain ⟨profile, hprofile⟩ := hpr
    refine ⟨⟨?_, ?_⟩, ?_, ?_⟩
    · intro h
      rw [hprofile] at h
      exact absurd h (by simp)
    · intro h
      exact absurd h (by simp)
    · intro e he
      rw [hprofile] at he
      exact absurd he (by simp)
    · intro bytes2 _
      exact ⟨profile, hprofile⟩

/-- C5 witness: the not-found error on an empty file system, and success
on a file system holding the path. -/
theorem C5_witness :
    parse_resume (fun _ => none) (fun _ => "") (fun _ => "")
      (fun _ => none) (fun _ _ => 0) (fun _ => []) (fun _ => [])
      none "cv.pdf" = Except.error (ParseError.notFound "cv.pdf") ∧
    (∃ profile, parse_resume (fun _ => some [104, 105]) (fun _ => "")
      (fun _ => "") (fun _ => none) (fun _ _ => 0) (fun _ => [])
      (fun _ => []) none "cv.txt" = Except.ok profile) :=
  ⟨(C5_missing_path (fun _ => none) (fun _ => "") (fun _ => "")
      (fun _ => none) (fun _ _ => 0) (fun _ => []) (fun _ => [])
      none "cv.pdf").1.mpr rfl,
   (C5_missing_path (fun _ => some [104, 105]) (fun _ => "") (fun _ => "")
      (fun _ => none) (fun _ _ => 0) (fun _ => []) (fun _ => [])
      none "cv.txt").2.2 [104, 105] rfl⟩

end ResumeParser
